import Mathlib

/-!
Verification of the vector store, indexing pipeline, embedding-acquisition
fallback protocol and similarity search of the obsidian-related-notes plugin
(sources: semantic_search.ts and ollama_client.ts).

Modelling conventions used throughout:
* JavaScript numbers appearing only as opaque payloads (stored embedding
  components, modification times) are modelled by their bit patterns, i.e.
  plain naturals (a float32 component is a natural below 2 to the 32, a
  float64 timestamp a natural below 2 to the 64).  Identical bit patterns
  correspond to identical stored values, which is what the persistence claims
  compare.
* JavaScript numbers taking part in arithmetic (cosine similarity scores) are
  modelled by the type JSNum below: exact rationals extended with NaN and the
  two infinities, following the IEEE-754 special-value rules but without
  rounding.  The theorems proved about them depend only on exact zero /
  special-value structure, where binary64 arithmetic agrees exactly with this
  model.
* Strings crossing the TextEncoder and TextDecoder boundary (vault paths in
  the binary file) are modelled by their UTF-8 byte sequences.
* Stateful methods become pure functions threading their state explicitly;
  awaited collaborator calls (vault adapter, HTTP transport) become function
  parameters; a thrown exception becomes an explicit error value.
-/

/-- Record type of semantic_search.ts (interface NoteVector): one stored
vector per note path.  The path, embedding-component and mtime value types
are parameters so that each claim can pick the value model it needs. -/
structure NoteVector (π α μ : Type) where
  path : π
  embedding : List α
  mtime : μ
deriving DecidableEq, Repr

/-- Paths of the records of a store, in store order. -/
def pathsOf {π α μ : Type} (vectors : List (NoteVector π α μ)) : List π :=
  vectors.map (·.path)

/-! ## Binary vector file encoding (saveVectorsBinary / loadVectorsBinary)

The binary layout written by saveVectorsBinary:
magic "VEC1" (4 bytes), record count (uint32 LE), dimension (uint32 LE),
then per record: path byte length (uint32 LE), path bytes, mtime
(float64 LE, modelled by its 8-byte pattern), dimension float32 components
(4-byte patterns each). -/

/-- Little-endian 4-byte encoding of a 32-bit value, as DataView.setUint32
with littleEndian true stores it (values are reduced modulo 256 per byte). -/
def u32LE (n : Nat) : List Nat :=
  [n % 256, n / 256 % 256, n / 256 / 256 % 256, n / 256 / 256 / 256 % 256]

/-- Little-endian 8-byte encoding of a 64-bit pattern, as
DataView.setFloat64 stores the bit pattern of the written double. -/
def u64LE (n : Nat) : List Nat :=
  [n % 256, n / 256 % 256, n / 256 / 256 % 256, n / 256 / 256 / 256 % 256,
   n / 256 ^ 4 % 256, n / 256 ^ 5 % 256, n / 256 ^ 6 % 256, n / 256 ^ 7 % 256]

/-- Byte values of the magic header characters V, E, C, 1. -/
def magicBytes : List Nat := [86, 69, 67, 49]

/-- Serialization of one record, mirroring the body loop of
saveVectorsBinary: path length, path bytes (stored through a Uint8Array,
hence reduced modulo 256), mtime pattern, then exactly dimension embedding
components (a missing component reads as undefined and is stored as a NaN
pattern; the consistent-dimension hypothesis of the round-trip theorem makes
this case unreachable). -/
def serializeRecord (dimension : Nat) (v : NoteVector (List Nat) Nat Nat) : List Nat :=
  u32LE v.path.length ++ v.path.map (· % 256) ++ u64LE v.mtime ++
    ((List.range dimension).map
      (fun i => u32LE (v.embedding.getD i 0x7FC00000))).flatten

/-- Whole-buffer serialization, mirroring saveVectorsBinary: header with
magic, count and the dimension of the first record, then the record bodies. -/
def serializeVectors (vectors : List (NoteVector (List Nat) Nat Nat)) : List Nat :=
  magicBytes ++ u32LE vectors.length ++
    u32LE ((vectors.headD ⟨[], [], 0⟩).embedding.length) ++
    (vectors.map (serializeRecord ((vectors.headD ⟨[], [], 0⟩).embedding.length))).flatten

/-- Effect of saveVectorsBinary on the persisted binary file: when the store
is empty the method returns before writing anything (first line of
saveVectorsBinary), so the file keeps its previous contents; otherwise the
serialized snapshot replaces the file. -/
def saveVectorsBinaryFS (vectors : List (NoteVector (List Nat) Nat Nat))
    (fs : Option (List Nat)) : Option (List Nat) :=
  if vectors.isEmpty then fs else some (serializeVectors vectors)

/-- Read a little-endian uint32 from the front of the buffer, as
DataView.getUint32 does; fails (RangeError) when fewer than four bytes
remain. -/
def readU32 : List Nat → Option (Nat × List Nat)
  | b0 :: b1 :: b2 :: b3 :: rest =>
      some (b0 + 256 * b1 + 256 ^ 2 * b2 + 256 ^ 3 * b3, rest)
  | _ => none

/-- Read a little-endian float64 bit pattern from the front of the buffer. -/
def readU64 : List Nat → Option (Nat × List Nat)
  | b0 :: b1 :: b2 :: b3 :: b4 :: b5 :: b6 :: b7 :: rest =>
      some (b0 + 256 * b1 + 256 ^ 2 * b2 + 256 ^ 3 * b3 + 256 ^ 4 * b4 +
        256 ^ 5 * b5 + 256 ^ 6 * b6 + 256 ^ 7 * b7, rest)
  | _ => none

/-- Read a fixed number of raw bytes (the decoded path) from the buffer. -/
def readBytes (n : Nat) (buf : List Nat) : Option (List Nat × List Nat) :=
  if n ≤ buf.length then some (buf.take n, buf.drop n) else none

/-- Read the given number of float32 component patterns. -/
def readF32s : Nat → List Nat → Option (List Nat × List Nat)
  | 0, buf => some ([], buf)
  | n + 1, buf => do
      let (x, buf) ← readU32 buf
      let (xs, buf) ← readF32s n buf
      pure (x :: xs, buf)

/-- Parse one record, mirroring one iteration of the loadVectorsBinary
loop: path length, path bytes, mtime, then dimension components. -/
def parseRecord (dimension : Nat) (buf : List Nat) :
    Option (NoteVector (List Nat) Nat Nat × List Nat) := do
  let (pathLen, buf) ← readU32 buf
  let (path, buf) ← readBytes pathLen buf
  let (mtime, buf) ← readU64 buf
  let (embedding, buf) ← readF32s dimension buf
  pure (⟨path, embedding, mtime⟩, buf)

/-- Parse the given number of records in sequence. -/
def parseRecords (dimension : Nat) : Nat → List Nat →
    Option (List (NoteVector (List Nat) Nat Nat) × List Nat)
  | 0, buf => some ([], buf)
  | n + 1, buf => do
      let (v, buf) ← parseRecord dimension buf
      let (vs, buf) ← parseRecords dimension n buf
      pure (v :: vs, buf)

/-- Parse a whole binary vector buffer, mirroring the body of the try block
of loadVectorsBinary: the four magic bytes must spell VEC1, then count and
dimension, then count records.  Any shortfall makes the whole parse fail. -/
def parseVectors (buf : List Nat) :
    Option (List (NoteVector (List Nat) Nat Nat)) :=
  if buf.take 4 = magicBytes then do
    let (numVectors, rest) ← readU32 (buf.drop 4)
    let (dimension, rest) ← readU32 rest
    let (vs, _) ← parseRecords dimension numVectors rest
    pure vs
  else none

/-- loadVectorsBinary: a parse failure (bad magic, truncated buffer) is
caught by the surrounding try/catch, which logs a warning and resets the
in-memory store to empty; no exception escapes the method. -/
def loadVectorsBinary (buf : List Nat) : List (NoteVector (List Nat) Nat Nat) :=
  (parseVectors buf).getD []

/-- loadVectors in binary format against the persisted file state: with no
binary file present the store stays empty (loadVectors only clears the
in-memory array), otherwise the file body is parsed by loadVectorsBinary. -/
def loadVectorsBinaryFS (fs : Option (List Nat)) :
    List (NoteVector (List Nat) Nat Nat) :=
  match fs with
  | none => []
  | some buf => loadVectorsBinary buf

/-! ### Round-trip lemmas for the binary encoding -/

theorem readU32_u32LE (n : Nat) (rest : List Nat) (h : n < 2 ^ 32) :
    readU32 (u32LE n ++ rest) = some (n, rest) := by
  simp only [u32LE, List.cons_append, List.nil_append, readU32,
    Option.some.injEq, Prod.mk.injEq]
  norm_num
  omega

theorem readU64_u64LE (n : Nat) (rest : List Nat) (h : n < 2 ^ 64) :
    readU64 (u64LE n ++ rest) = some (n, rest) := by
  simp only [u64LE, List.cons_append, List.nil_append, readU64,
    Option.some.injEq, Prod.mk.injEq]
  norm_num
  omega

theorem readBytes_append (l rest : List Nat) :
    readBytes l.length (l ++ rest) = some (l, rest) := by
  simp [readBytes, List.take_left, List.drop_left]

theorem map_getD_range {α β : Type} (f : α → β) (l : List α) (d : α) :
    (List.range l.length).map (fun i => f (l.getD i d)) = l.map f := by
  induction l with
  | nil => simp
  | cons x xs ih =>
      rw [List.length_cons, List.range_succ_eq_map, List.map_cons, List.map_map]
      refine congrArg₂ List.cons (by simp) ?_
      rw [← ih]
      apply List.map_congr_left
      intro i _
      simp [Function.comp, List.getD_cons_succ]

theorem readF32s_roundtrip (emb : List Nat) (rest : List Nat)
    (h : ∀ x ∈ emb, x < 2 ^ 32) :
    readF32s emb.length ((emb.map u32LE).flatten ++ rest) = some (emb, rest) := by
  induction emb with
  | nil => simp [readF32s]
  | cons x xs ih =>
      simp only [List.map_cons, List.flatten_cons, List.length_cons, readF32s,
        List.append_assoc]
      rw [readU32_u32LE x _ (h x (by simp))]
      simp only [Option.bind_eq_bind, Option.some_bind]
      rw [ih (fun y hy => h y (by simp [hy]))]
      rfl

theorem parseRecord_serializeRecord (dimension : Nat)
    (v : NoteVector (List Nat) Nat Nat) (rest : List Nat)
    (hp : ∀ b ∈ v.path, b < 256) (hl : v.path.length < 2 ^ 32)
    (hm : v.mtime < 2 ^ 64) (he : ∀ x ∈ v.embedding, x < 2 ^ 32)
    (hd : v.embedding.length = dimension) :
    parseRecord dimension (serializeRecord dimension v ++ rest) = some (v, rest) := by
  have hmap : v.path.map (· % 256) = v.path :=
    (List.map_congr_left fun b hb => Nat.mod_eq_of_lt (hp b hb)).trans
      (List.map_id v.path)
  have hemb : (List.range dimension).map
      (fun i => u32LE (v.embedding.getD i 0x7FC00000)) = v.embedding.map u32LE := by
    rw [← hd]; exact map_getD_range u32LE v.embedding 0x7FC00000
  simp only [serializeRecord, hmap, hemb, parseRecord, List.append_assoc,
    Option.bind_eq_bind]
  rw [readU32_u32LE _ _ hl, Option.some_bind,
    readBytes_append, Option.some_bind,
    readU64_u64LE _ _ hm, Option.some_bind]
  rw [← hd, readF32s_roundtrip _ _ he, Option.some_bind]
  rfl

theorem parseRecords_roundtrip (dimension : Nat)
    (vectors : List (NoteVector (List Nat) Nat Nat)) (rest : List Nat)
    (hp : ∀ v ∈ vectors, ∀ b ∈ v.path, b < 256)
    (hl : ∀ v ∈ vectors, v.path.length < 2 ^ 32)
    (hm : ∀ v ∈ vectors, v.mtime < 2 ^ 64)
    (he : ∀ v ∈ vectors, ∀ x ∈ v.embedding, x < 2 ^ 32)
    (hd : ∀ v ∈ vectors, v.embedding.length = dimension) :
    parseRecords dimension vectors.length
      ((vectors.map (serializeRecord dimension)).flatten ++ rest) =
      some (vectors, rest) := by
  induction vectors with
  | nil => simp [parseRecords]
  | cons v vs ih =>
      simp only [List.map_cons, List.flatten_cons, List.length_cons,
        parseRecords, List.append_assoc, Option.bind_eq_bind]
      rw [parseRecord_serializeRecord dimension v _
        (hp v (by simp)) (hl v (by simp)) (hm v (by simp)) (he v (by simp))
        (hd v (by simp)), Option.some_bind]
      rw [ih (fun w hw => hp w (by simp [hw])) (fun w hw => hl w (by simp [hw]))
        (fun w hw => hm w (by simp [hw])) (fun w hw => he w (by simp [hw]))
        (fun w hw => hd w (by simp [hw])), Option.some_bind]
      rfl

theorem parseVectors_serializeVectors
    (vectors : List (NoteVector (List Nat) Nat Nat))
    (hcount : vectors.length < 2 ^ 32)
    (hdlt : (vectors.headD ⟨[], [], 0⟩).embedding.length < 2 ^ 32)
    (hp : ∀ v ∈ vectors, ∀ b ∈ v.path, b < 256)
    (hl : ∀ v ∈ vectors, v.path.length < 2 ^ 32)
    (hm : ∀ v ∈ vectors, v.mtime < 2 ^ 64)
    (he : ∀ v ∈ vectors, ∀ x ∈ v.embedding, x < 2 ^ 32)
    (hd : ∀ v ∈ vectors,
      v.embedding.length = (vectors.headD ⟨[], [], 0⟩).embedding.length) :
    parseVectors (serializeVectors vectors) = some vectors := by
  have hmagic : magicBytes.length = 4 := rfl
  simp only [serializeVectors, parseVectors, List.append_assoc]
  rw [← hmagic, List.take_left, List.drop_left, if_pos rfl, Option.bind_eq_bind]
  rw [readU32_u32LE _ _ hcount, Option.some_bind,
    readU32_u32LE _ _ hdlt, Option.some_bind]
  dsimp only
  have hrec := parseRecords_roundtrip _ vectors [] hp hl hm he hd
  rw [List.append_nil] at hrec
  rw [hrec]
  rfl

/-- C1 (amended): for every nonempty store whose records share the dimension
of the first record (with representable sizes: record count, dimension and
path byte lengths below 2 ^ 32, path bytes below 256, mtime patterns below
2 ^ 64, component patterns below 2 ^ 32), saving in binary format and then
loading in binary format yields the identical record list (which implies the
order-insensitive comparison by path of the claim).  For the empty store,
however, saveVectorsBinary returns before writing, leaving the previously
persisted binary file unchanged; loading then returns whatever that file
held, so the round trip holds for the empty store only when no binary file
existed beforehand. -/
theorem binary_save_load_roundtrip
    (vectors : List (NoteVector (List Nat) Nat Nat)) (fs : Option (List Nat))
    (hcount : vectors.length < 2 ^ 32)
    (hdlt : (vectors.headD ⟨[], [], 0⟩).embedding.length < 2 ^ 32)
    (hp : ∀ v ∈ vectors, ∀ b ∈ v.path, b < 256)
    (hl : ∀ v ∈ vectors, v.path.length < 2 ^ 32)
    (hm : ∀ v ∈ vectors, v.mtime < 2 ^ 64)
    (he : ∀ v ∈ vectors, ∀ x ∈ v.embedding, x < 2 ^ 32)
    (hd : ∀ v ∈ vectors,
      v.embedding.length = (vectors.headD ⟨[], [], 0⟩).embedding.length) :
    (vectors ≠ [] → loadVectorsBinaryFS (saveVectorsBinaryFS vectors fs) = vectors)
    ∧ (vectors = [] → saveVectorsBinaryFS vectors fs = fs) := by
  constructor
  · intro hne
    have hemp : vectors.isEmpty = false := by
      simp [List.isEmpty_iff, hne]
    simp [saveVectorsBinaryFS, hemp, loadVectorsBinaryFS, loadVectorsBinary,
      parseVectors_serializeVectors vectors hcount hdlt hp hl hm he hd]
  · intro hemp
    simp [saveVectorsBinaryFS, hemp]

/-- C1 witness: a concrete two-record store with dimension 2 round-trips
through the binary encoding. -/
theorem binary_save_load_roundtrip_witness :
    loadVectorsBinaryFS
      (saveVectorsBinaryFS [⟨[97], [3, 4], 5⟩, ⟨[98], [6, 7], 8⟩] none) =
      [⟨[97], [3, 4], 5⟩, ⟨[98], [6, 7], 8⟩] :=
  (binary_save_load_roundtrip [⟨[97], [3, 4], 5⟩, ⟨[98], [6, 7], 8⟩] none
    (by decide) (by decide) (by decide) (by decide) (by decide) (by decide)
    (by decide)).1 (by decide)

/-- C1 counterexample: the round trip fails for the empty store when a
binary file already exists.  Saving the empty store writes nothing (early
return in saveVectorsBinary), so the stale one-record file survives and
loading returns its record instead of the empty set the claim demands. -/
theorem binary_roundtrip_empty_store_counterexample :
    saveVectorsBinaryFS [] (some (serializeVectors [⟨[97], [5], 7⟩])) =
      some (serializeVectors [⟨[97], [5], 7⟩])
    ∧ loadVectorsBinaryFS
        (saveVectorsBinaryFS [] (some (serializeVectors [⟨[97], [5], 7⟩]))) =
        [⟨[97], [5], 7⟩]
    ∧ ([⟨[97], [5], 7⟩] : List (NoteVector (List Nat) Nat Nat)) ≠ [] := by
  refine ⟨rfl, by decide, by decide⟩

/-! ### Malformed and truncated buffers (loadVectorsBinary failure cases)

The reads of the parser fail exactly when fewer bytes remain than the
DataView accesses of the source demand (which there throw a RangeError,
caught by the catch block).  The lemmas below show that every strict prefix
of a well-formed binary file fails to parse, covering truncation anywhere:
inside the magic, the header counts, a path, an mtime or the embedding
components. -/

theorem take_append_ge (A B : List Nat) (n : Nat) (h : A.length ≤ n) :
    (A ++ B).take n = A ++ B.take (n - A.length) := by
  rw [List.take_append_eq_append_take, List.take_of_length_le h]

theorem readU32_short (l : List Nat) (h : l.length < 4) : readU32 l = none := by
  rcases l with _ | ⟨b0, _ | ⟨b1, _ | ⟨b2, _ | ⟨b3, t⟩⟩⟩⟩
  · rfl
  · rfl
  · rfl
  · rfl
  · simp only [List.length_cons] at h; omega

theorem readU64_short (l : List Nat) (h : l.length < 8) : readU64 l = none := by
  rcases l with _ | ⟨b0, _ | ⟨b1, _ | ⟨b2, _ | ⟨b3, _ | ⟨b4, _ | ⟨b5, _ |
    ⟨b6, _ | ⟨b7, t⟩⟩⟩⟩⟩⟩⟩⟩
  · rfl
  · rfl
  · rfl
  · rfl
  · rfl
  · rfl
  · rfl
  · rfl
  · simp only [List.length_cons] at h; omega

theorem flatten_map_u32LE_length (emb : List Nat) :
    ((emb.map u32LE).flatten).length = 4 * emb.length := by
  induction emb with
  | nil => rfl
  | cons x xs ih =>
      simp only [List.map_cons, List.flatten_cons, List.length_append, ih,
        List.length_cons]
      simp [u32LE]
      omega

theorem readF32s_truncated :
    ∀ (emb : List Nat) (j : Nat), j < 4 * emb.length →
      readF32s emb.length (((emb.map u32LE).flatten).take j) = none := by
  intro emb
  induction emb with
  | nil => intro j hj; simp at hj
  | cons x xs ih =>
      intro j hj
      simp only [List.map_cons, List.flatten_cons]
      by_cases hj4 : j < 4
      · have hshort :
            ((u32LE x ++ (xs.map u32LE).flatten).take j).length < 4 := by
          rw [List.length_take]
          omega
        rw [List.length_cons, readF32s, readU32_short _ hshort]
        rfl
      · have h4 : (u32LE x).length ≤ j := by simp [u32LE]; omega
        rw [take_append_ge _ _ _ h4, List.length_cons, readF32s]
        have hread : ∀ Y, readU32 (u32LE x ++ Y) =
            some (x % 256 + 256 * (x / 256 % 256) +
              256 ^ 2 * (x / 256 / 256 % 256) +
              256 ^ 3 * (x / 256 / 256 / 256 % 256), Y) := fun Y => rfl
        rw [hread]
        have hlen4 : (u32LE x).length = 4 := by simp [u32LE]
        rw [hlen4]
        simp only [Option.bind_eq_bind, Option.some_bind]
        rw [ih (j - 4) (by simp only [List.length_cons] at hj; omega)]
        rfl

theorem parseRecord_truncated (dimension : Nat)
    (v : NoteVector (List Nat) Nat Nat) (k : Nat)
    (hp : ∀ b ∈ v.path, b < 256) (hl : v.path.length < 2 ^ 32)
    (hm : v.mtime < 2 ^ 64) (hd : v.embedding.length = dimension)
    (hk : k < (serializeRecord dimension v).length) :
    parseRecord dimension ((serializeRecord dimension v).take k) = none := by
  have hmap : v.path.map (· % 256) = v.path :=
    (List.map_congr_left fun b hb => Nat.mod_eq_of_lt (hp b hb)).trans
      (List.map_id v.path)
  have hemb : (List.range dimension).map
      (fun i => u32LE (v.embedding.getD i 0x7FC00000)) =
      v.embedding.map u32LE := by
    rw [← hd]; exact map_getD_range u32LE v.embedding 0x7FC00000
  have hsr : serializeRecord dimension v =
      u32LE v.path.length ++ (v.path ++
        (u64LE v.mtime ++ (v.embedding.map u32LE).flatten)) := by
    simp only [serializeRecord, hmap, hemb, List.append_assoc]
  have h1 : (u32LE v.path.length).length = 4 := by simp [u32LE]
  have h2 : (u64LE v.mtime).length = 8 := by simp [u64LE]
  have hEl : ((v.embedding.map u32LE).flatten).length = 4 * v.embedding.length :=
    flatten_map_u32LE_length v.embedding
  have hklen : k < 4 + (v.path.length + (8 + 4 * v.embedding.length)) := by
    rw [hsr] at hk
    simpa [List.length_append, h1, h2, hEl] using hk
  rw [hsr]
  rcases Nat.lt_or_ge k 4 with hk4 | hk4
  · have hshort : ((u32LE v.path.length ++ (v.path ++
        (u64LE v.mtime ++ (v.embedding.map u32LE).flatten))).take k).length < 4 := by
      rw [List.length_take]
      omega
    simp only [parseRecord, Option.bind_eq_bind]
    rw [readU32_short _ hshort]
    rfl
  · rw [take_append_ge _ _ _ (by rw [h1]; omega), h1]
    simp only [parseRecord, Option.bind_eq_bind]
    rw [readU32_u32LE _ _ hl, Option.some_bind]
    rcases Nat.lt_or_ge k (4 + v.path.length) with hkL | hkL
    · have hshort : ¬ v.path.length ≤
          (((v.path ++ (u64LE v.mtime ++
            (v.embedding.map u32LE).flatten)).take (k - 4))).length := by
        rw [List.length_take]
        omega
      simp only [readBytes]
      rw [if_neg hshort]
      rfl
    · rw [take_append_ge _ _ _ (by omega)]
      rw [readBytes_append, Option.some_bind]
      rcases Nat.lt_or_ge k (12 + v.path.length) with hkM | hkM
      · have hshort : ((u64LE v.mtime ++
            (v.embedding.map u32LE).flatten).take
              (k - 4 - v.path.length)).length < 8 := by
          rw [List.length_take]
          omega
        rw [readU64_short _ hshort]
        rfl
      · rw [take_append_ge _ _ _ (by rw [h2]; omega), h2]
        rw [readU64_u64LE _ _ hm, Option.some_bind]
        rw [← hd]
        rw [readF32s_truncated v.embedding (k - 4 - v.path.length - 8)
          (by omega)]
        rfl

theorem parseRecords_truncated (dimension : Nat) :
    ∀ (vectors : List (NoteVector (List Nat) Nat Nat)) (k : Nat),
      (∀ v ∈ vectors, ∀ b ∈ v.path, b < 256) →
      (∀ v ∈ vectors, v.path.length < 2 ^ 32) →
      (∀ v ∈ vectors, v.mtime < 2 ^ 64) →
      (∀ v ∈ vectors, ∀ x ∈ v.embedding, x < 2 ^ 32) →
      (∀ v ∈ vectors, v.embedding.length = dimension) →
      k < ((vectors.map (serializeRecord dimension)).flatten).length →
      parseRecords dimension vectors.length
        (((vectors.map (serializeRecord dimension)).flatten).take k) = none := by
  intro vectors
  induction vectors with
  | nil => intro k _ _ _ _ _ hk; simp at hk
  | cons v vs ih =>
      intro k hp hl hm he hd hk
      simp only [List.map_cons, List.flatten_cons] at hk ⊢
      rcases Nat.lt_or_ge k (serializeRecord dimension v).length with hk1 | hk1
      · have htk : (serializeRecord dimension v ++
            (vs.map (serializeRecord dimension)).flatten).take k =
            (serializeRecord dimension v).take k := by
          rw [List.take_append_eq_append_take]
          have hz : k - (serializeRecord dimension v).length = 0 := by omega
          rw [hz, List.take_zero, List.append_nil]
        rw [htk, List.length_cons, parseRecords]
        rw [parseRecord_truncated dimension v k (hp v (by simp))
          (hl v (by simp)) (hm v (by simp)) (hd v (by simp)) hk1]
        rfl
      · rw [take_append_ge _ _ _ hk1, List.length_cons, parseRecords]
        rw [parseRecord_serializeRecord dimension v _ (hp v (by simp))
          (hl v (by simp)) (hm v (by simp)) (he v (by simp)) (hd v (by simp))]
        simp only [Option.bind_eq_bind, Option.some_bind]
        rw [ih (k - (serializeRecord dimension v).length)
          (fun w hw => hp w (by simp [hw])) (fun w hw => hl w (by simp [hw]))
          (fun w hw => hm w (by simp [hw])) (fun w hw => he w (by simp [hw]))
          (fun w hw => hd w (by simp [hw]))
          (by rw [List.length_append] at hk; omega)]
        rfl

theorem parseVectors_truncated
    (vectors : List (NoteVector (List Nat) Nat Nat)) (k : Nat)
    (hcount : vectors.length < 2 ^ 32)
    (hdlt : (vectors.headD ⟨[], [], 0⟩).embedding.length < 2 ^ 32)
    (hp : ∀ v ∈ vectors, ∀ b ∈ v.path, b < 256)
    (hl : ∀ v ∈ vectors, v.path.length < 2 ^ 32)
    (hm : ∀ v ∈ vectors, v.mtime < 2 ^ 64)
    (he : ∀ v ∈ vectors, ∀ x ∈ v.embedding, x < 2 ^ 32)
    (hd : ∀ v ∈ vectors,
      v.embedding.length = (vectors.headD ⟨[], [], 0⟩).embedding.length)
    (hk : k < (serializeVectors vectors).length) :
    parseVectors ((serializeVectors vectors).take k) = none := by
  have hsv : serializeVectors vectors = magicBytes ++
      (u32LE vectors.length ++
        (u32LE ((vectors.headD ⟨[], [], 0⟩).embedding.length) ++
          (vectors.map (serializeRecord
            ((vectors.headD ⟨[], [], 0⟩).embedding.length))).flatten)) := by
    simp only [serializeVectors, List.append_assoc]
  have hmg : magicBytes.length = 4 := rfl
  have hc4 : (u32LE vectors.length).length = 4 := by simp [u32LE]
  have hd4 : (u32LE ((vectors.headD ⟨[], [], 0⟩).embedding.length)).length = 4 := by
    simp [u32LE]
  have hklen : k < 4 + (4 + (4 +
      ((vectors.map (serializeRecord
        ((vectors.headD ⟨[], [], 0⟩).embedding.length))).flatten).length)) := by
    rw [hsv] at hk
    simpa [List.length_append, hmg, hc4, hd4] using hk
  rw [hsv]
  rcases Nat.lt_or_ge k 4 with hk4 | hk4
  · have hne : (((magicBytes ++
        (u32LE vectors.length ++
          (u32LE ((vectors.headD ⟨[], [], 0⟩).embedding.length) ++
            (vectors.map (serializeRecord
              ((vectors.headD ⟨[], [], 0⟩).embedding.length))).flatten))).take
                k).take 4) ≠ magicBytes := by
      intro hcontra
      have hlc := congrArg List.length hcontra
      simp only [List.length_take] at hlc
      have : magicBytes.length = 4 := rfl
      omega
    simp only [parseVectors]
    rw [if_neg hne]
  · rw [take_append_ge _ _ _ (by rw [hmg]; omega), hmg]
    have hmagic : ((magicBytes ++
        ((u32LE vectors.length ++
          (u32LE ((vectors.headD ⟨[], [], 0⟩).embedding.length) ++
            (vectors.map (serializeRecord
              ((vectors.headD ⟨[], [], 0⟩).embedding.length))).flatten)).take
                (k - 4))).take 4) = magicBytes := by
      rw [← hmg, List.take_left]
    simp only [parseVectors]
    rw [if_pos hmagic, ← hmg, List.drop_left, hmg]
    rcases Nat.lt_or_ge k 8 with hk8 | hk8
    · have hshort : (((u32LE vectors.length ++
          (u32LE ((vectors.headD ⟨[], [], 0⟩).embedding.length) ++
            (vectors.map (serializeRecord
              ((vectors.headD ⟨[], [], 0⟩).embedding.length))).flatten)).take
                (k - 4))).length < 4 := by
        rw [List.length_take]
        omega
      rw [Option.bind_eq_bind, readU32_short _ hshort]
      rfl
    · rw [take_append_ge _ _ _ (by rw [hc4]; omega), hc4]
      rw [Option.bind_eq_bind, readU32_u32LE _ _ hcount, Option.some_bind]
      rcases Nat.lt_or_ge k 12 with hk12 | hk12
      · have hshort : (((u32LE ((vectors.headD ⟨[], [], 0⟩).embedding.length) ++
            (vectors.map (serializeRecord
              ((vectors.headD ⟨[], [], 0⟩).embedding.length))).flatten).take
                (k - 4 - 4))).length < 4 := by
          rw [List.length_take]
          omega
        rw [readU32_short _ hshort]
        rfl
      · rw [take_append_ge _ _ _ (by rw [hd4]; omega), hd4]
        rw [readU32_u32LE _ _ hdlt, Option.some_bind]
        dsimp only
        rw [parseRecords_truncated _ vectors (k - 4 - 4 - 4) hp hl hm he hd
          (by omega)]
        rfl

/-- C9: loading any malformed persisted buffer yields the empty store,
with no error escaping the load boundary (loadVectorsBinary is total: the
thrown parse error is caught inside the method, which logs the warning and
resets the store).  Three conjuncts cover the claim: a buffer whose first
four bytes do not spell VEC1 loads as empty; any buffer the parser rejects
loads as empty; and every strictly truncated prefix of a well-formed binary
file (with the representable sizes the uint32 format imposes) fails to
parse and loads as empty — covering truncation inside the magic, the
header, a path, an mtime or the embedding components, whether or not the
magic is intact. -/
theorem loadVectorsBinary_rejects_malformed
    (buf : List Nat)
    (vectors : List (NoteVector (List Nat) Nat Nat)) (k : Nat)
    (hcount : vectors.length < 2 ^ 32)
    (hdlt : (vectors.headD ⟨[], [], 0⟩).embedding.length < 2 ^ 32)
    (hp : ∀ v ∈ vectors, ∀ b ∈ v.path, b < 256)
    (hl : ∀ v ∈ vectors, v.path.length < 2 ^ 32)
    (hm : ∀ v ∈ vectors, v.mtime < 2 ^ 64)
    (he : ∀ v ∈ vectors, ∀ x ∈ v.embedding, x < 2 ^ 32)
    (hd : ∀ v ∈ vectors,
      v.embedding.length = (vectors.headD ⟨[], [], 0⟩).embedding.length)
    (hk : k < (serializeVectors vectors).length) :
    (buf.take 4 ≠ magicBytes → loadVectorsBinary buf = [])
    ∧ (parseVectors buf = none → loadVectorsBinary buf = [])
    ∧ loadVectorsBinary ((serializeVectors vectors).take k) = [] := by
  refine ⟨fun h => ?_, fun h => ?_, ?_⟩
  · simp [loadVectorsBinary, parseVectors, h]
  · simp [loadVectorsBinary, h]
  · simp [loadVectorsBinary,
      parseVectors_truncated vectors k hcount hdlt hp hl hm he hd hk]

/-- C9 witness: a concrete buffer with wrong magic loads as the empty
store, and so does a concrete well-formed one-record file truncated to its
first ten bytes (VEC1 magic intact, header cut short). -/
theorem loadVectorsBinary_rejects_malformed_witness :
    (([0, 1, 2, 3] : List Nat).take 4 ≠ magicBytes
      ∧ 10 < (serializeVectors [⟨[97], [5], 7⟩]).length)
    ∧ loadVectorsBinary [0, 1, 2, 3] = []
    ∧ loadVectorsBinary ((serializeVectors [⟨[97], [5], 7⟩]).take 10) = [] :=
  ⟨⟨by decide, by decide⟩,
    (loadVectorsBinary_rejects_malformed [0, 1, 2, 3] [⟨[97], [5], 7⟩] 10
      (by decide) (by decide) (by decide) (by decide) (by decide) (by decide)
      (by decide) (by decide)).1 (by decide),
    (loadVectorsBinary_rejects_malformed [0, 1, 2, 3] [⟨[97], [5], 7⟩] 10
      (by decide) (by decide) (by decide) (by decide) (by decide) (by decide)
      (by decide) (by decide)).2.2⟩

/-! ## Store mutation: upsert (indexNote), prune

indexNote locates an existing record with Array.prototype.findIndex; -1 is
modelled as none.  The sequential semantics collapses the double-check
before push (which re-runs the same findIndex on the same store) into the
single lookup. -/

theorem pathsOf_nil {π α μ : Type} : pathsOf ([] : List (NoteVector π α μ)) = [] := rfl

theorem pathsOf_cons {π α μ : Type} (v : NoteVector π α μ)
    (vs : List (NoteVector π α μ)) : pathsOf (v :: vs) = v.path :: pathsOf vs := rfl

theorem pathsOf_append {π α μ : Type} (l₁ l₂ : List (NoteVector π α μ)) :
    pathsOf (l₁ ++ l₂) = pathsOf l₁ ++ pathsOf l₂ := List.map_append _ _ _

/-- Array.prototype.findIndex over the store: index of the first record with
the given path, none for -1. -/
def jsFindIndex {π α μ : Type} [DecidableEq π] (p : π) :
    List (NoteVector π α μ) → Option Nat
  | [] => none
  | v :: vs => if v.path = p then some 0 else (jsFindIndex p vs).map (· + 1)

/-- The insert-or-update-by-path store mutation of indexNote (lines with
existingIndex, set and push): replace the record at the found index, else
append at the end. -/
def upsert {π α μ : Type} [DecidableEq π] (vectors : List (NoteVector π α μ))
    (p : π) (e : List α) (m : μ) : List (NoteVector π α μ) :=
  match jsFindIndex p vectors with
  | some i => vectors.set i ⟨p, e, m⟩
  | none => vectors ++ [⟨p, e, m⟩]

theorem upsert_nil {π α μ : Type} [DecidableEq π] (p : π) (e : List α) (m : μ) :
    upsert ([] : List (NoteVector π α μ)) p e m = [⟨p, e, m⟩] := rfl

theorem upsert_cons {π α μ : Type} [DecidableEq π]
    (v : NoteVector π α μ) (vs : List (NoteVector π α μ))
    (p : π) (e : List α) (m : μ) :
    upsert (v :: vs) p e m =
      if v.path = p then ⟨p, e, m⟩ :: vs else v :: upsert vs p e m := by
  by_cases h : v.path = p
  · simp [upsert, jsFindIndex, h]
  · simp only [upsert, jsFindIndex, if_neg h]
    cases hf : jsFindIndex p vs with
    | none => simp [hf]
    | some i => simp [hf]

theorem pathsOf_upsert_mem {π α μ : Type} [DecidableEq π]
    (vectors : List (NoteVector π α μ)) (p : π) (e : List α) (m : μ)
    (h : p ∈ pathsOf vectors) :
    pathsOf (upsert vectors p e m) = pathsOf vectors := by
  induction vectors with
  | nil => simp [pathsOf] at h
  | cons v vs ih =>
      rw [upsert_cons]
      by_cases hv : v.path = p
      · rw [if_pos hv, pathsOf_cons, pathsOf_cons, hv]
      · rw [if_neg hv, pathsOf_cons, pathsOf_cons]
        have hmem : p ∈ pathsOf vs := by
          rw [pathsOf_cons] at h
          rcases List.mem_cons.mp h with h1 | h1
          · exact absurd h1.symm hv
          · exact h1
        rw [ih hmem]

theorem pathsOf_upsert_not_mem {π α μ : Type} [DecidableEq π]
    (vectors : List (NoteVector π α μ)) (p : π) (e : List α) (m : μ)
    (h : p ∉ pathsOf vectors) :
    pathsOf (upsert vectors p e m) = pathsOf vectors ++ [p] := by
  induction vectors with
  | nil => simp [upsert_nil, pathsOf]
  | cons v vs ih =>
      rw [upsert_cons]
      have hv : v.path ≠ p := by
        intro hh
        exact h (by rw [pathsOf_cons, hh]; exact List.mem_cons_self _ _)
      have hmem : p ∉ pathsOf vs := by
        intro hh
        exact h (by rw [pathsOf_cons]; exact List.mem_cons_of_mem _ hh)
      rw [if_neg hv, pathsOf_cons, pathsOf_cons, List.cons_append, ih hmem]

theorem nodup_pathsOf_upsert {π α μ : Type} [DecidableEq π]
    (vectors : List (NoteVector π α μ)) (p : π) (e : List α) (m : μ)
    (h : (pathsOf vectors).Nodup) :
    (pathsOf (upsert vectors p e m)).Nodup := by
  by_cases hmem : p ∈ pathsOf vectors
  · rw [pathsOf_upsert_mem vectors p e m hmem]; exact h
  · rw [pathsOf_upsert_not_mem vectors p e m hmem]
    simp [List.nodup_append, h, hmem]

theorem jsFindIndex_eq_none_iff {π α μ : Type} [DecidableEq π]
    (p : π) (vectors : List (NoteVector π α μ)) :
    jsFindIndex p vectors = none ↔ p ∉ pathsOf vectors := by
  induction vectors with
  | nil => simp [jsFindIndex, pathsOf_nil]
  | cons v vs ih =>
      by_cases hv : v.path = p
      · simp [jsFindIndex, hv, pathsOf_cons]
      · simp [jsFindIndex, hv, pathsOf_cons, ih, fun h => hv (Eq.symm h)]
        intro h
        exact fun hh => hv hh.symm

theorem nodup_pathsOf_foldl_upsert {π α μ : Type} [DecidableEq π]
    (ops : List (π × List α × μ)) :
    ∀ init : List (NoteVector π α μ), (pathsOf init).Nodup →
      (pathsOf (ops.foldl (fun vs op => upsert vs op.1 op.2.1 op.2.2) init)).Nodup := by
  induction ops with
  | nil => intro init h; exact h
  | cons op ops ih =>
      intro init h
      rw [List.foldl_cons]
      exact ih _ (nodup_pathsOf_upsert init op.1 op.2.1 op.2.2 h)

/-- C6: starting from any store with no duplicate paths (in particular the
empty store the service starts with), after any finite sequence of upsert
operations the store paths are duplicate-free and each present path occurs
exactly once; moreover a single upsert replaces in place when its path is
present (the path multiset is unchanged) and appends otherwise. -/
theorem upsert_sequence_no_duplicates {π α μ : Type} [DecidableEq π]
    (init : List (NoteVector π α μ)) (ops : List (π × List α × μ))
    (hinit : (pathsOf init).Nodup) :
    (pathsOf (ops.foldl (fun vs op => upsert vs op.1 op.2.1 op.2.2) init)).Nodup
    ∧ (∀ p ∈ pathsOf (ops.foldl (fun vs op => upsert vs op.1 op.2.1 op.2.2) init),
        (pathsOf (ops.foldl (fun vs op => upsert vs op.1 op.2.1 op.2.2) init)).count p = 1)
    ∧ (∀ p e m, (p ∈ pathsOf init → pathsOf (upsert init p e m) = pathsOf init)
        ∧ (p ∉ pathsOf init → pathsOf (upsert init p e m) = pathsOf init ++ [p])) := by
  have hnd := nodup_pathsOf_foldl_upsert ops init hinit
  refine ⟨hnd, fun p hp => ?_, fun p e m =>
    ⟨pathsOf_upsert_mem init p e m, pathsOf_upsert_not_mem init p e m⟩⟩
  exact List.count_eq_one_of_mem hnd hp

/-- C6 witness: three upserts (two of them on the same path) from the empty
store leave exactly one record per distinct path. -/
theorem upsert_sequence_no_duplicates_witness :
    (pathsOf (([] : List (NoteVector Nat Nat Nat))) ).Nodup
    ∧ (pathsOf (([(1, [5], 0), (1, [6], 1), (2, [7], 0)] :
        List (Nat × List Nat × Nat)).foldl
          (fun vs op => upsert vs op.1 op.2.1 op.2.2) [])).Nodup :=
  ⟨by decide,
    (upsert_sequence_no_duplicates [] [(1, [5], 0), (1, [6], 1), (2, [7], 0)]
      (by decide)).1⟩

/-- The pruning step of indexAll: keep exactly the records whose path is in
the set of current file paths (Set.has on the JS side, list membership
here). -/
def prune {π α μ : Type} [DecidableEq π] (vectors : List (NoteVector π α μ))
    (livePaths : List π) : List (NoteVector π α μ) :=
  vectors.filter (fun v => decide (v.path ∈ livePaths))

/-- C8: prune removes exactly the records whose path is not among the live
paths: the result is a sublist of the store (so every surviving record is
one of the original record values, embedding and modification time intact
and in the original order), and a record survives exactly when it was in
the store with a live path. -/
theorem prune_removes_exactly {π α μ : Type} [DecidableEq π]
    (vectors : List (NoteVector π α μ)) (livePaths : List π) :
    (prune vectors livePaths).Sublist vectors
    ∧ ∀ r, r ∈ prune vectors livePaths ↔ (r ∈ vectors ∧ r.path ∈ livePaths) := by
  constructor
  · exact List.filter_sublist _
  · intro r
    simp [prune, List.mem_filter]

/-- The corpus collaborator's view of a document (TFile): a stable path and
the current modification time.  The document content only feeds the
embedding request, which is abstracted as a function of the file below. -/
structure MFile (π μ : Type) where
  path : π
  mtime : μ
deriving DecidableEq, Repr

/-- indexNote: look up the record for the file path; if one exists with an
identical modification time, return without doing anything (cache hit, zero
embedding requests).  Otherwise request one embedding (embedOf bundles
vault.read, preprocessContent and generateEmbedding; none models a thrown
embedding failure) and replace the found record in place or append a new
one.  The second component counts embedding requests performed.  The
double-check before push re-runs findIndex on the same store and therefore
coincides with the first lookup in this sequential model. -/
def indexNote {π α μ : Type} [DecidableEq π] [DecidableEq μ]
    (embedOf : MFile π μ → Option (List α))
    (vectors : List (NoteVector π α μ)) (f : MFile π μ) :
    Option (List (NoteVector π α μ)) × Nat :=
  match jsFindIndex f.path vectors with
  | some i =>
      if (vectors.getD i ⟨f.path, [], f.mtime⟩).mtime = f.mtime then
        (some vectors, 0)
      else
        match embedOf f with
        | none => (none, 1)
        | some e => (some (vectors.set i ⟨f.path, e, f.mtime⟩), 1)
  | none =>
      match embedOf f with
      | none => (none, 1)
      | some e => (some (vectors ++ [⟨f.path, e, f.mtime⟩]), 1)

theorem jsFindIndex_set_self {π α μ : Type} [DecidableEq π]
    (p : π) (e : List α) (m : μ) (d : NoteVector π α μ) :
    ∀ (vectors : List (NoteVector π α μ)) (i : Nat),
      jsFindIndex p vectors = some i →
      jsFindIndex p (vectors.set i ⟨p, e, m⟩) = some i ∧
      (vectors.set i ⟨p, e, m⟩).getD i d = ⟨p, e, m⟩ := by
  intro vectors
  induction vectors with
  | nil => intro i h; simp [jsFindIndex] at h
  | cons v vs ih =>
      intro i h
      by_cases hv : v.path = p
      · simp only [jsFindIndex, if_pos hv, Option.some.injEq] at h
        subst h
        constructor
        · simp [jsFindIndex]
        · simp [List.getD]
      · simp only [jsFindIndex, if_neg hv, Option.map_eq_some'] at h
        obtain ⟨j, hj, hij⟩ := h
        subst hij
        have := ih j hj
        constructor
        · simp only [List.set_cons_succ, jsFindIndex, if_neg hv, this.1,
            Option.map_some']
        · simp only [List.set_cons_succ, List.getD_cons_succ]
          exact this.2

theorem jsFindIndex_append_self {π α μ : Type} [DecidableEq π]
    (p : π) (e : List α) (m : μ) (d : NoteVector π α μ)
    (vectors : List (NoteVector π α μ))
    (h : jsFindIndex p vectors = none) :
    jsFindIndex p (vectors ++ [(⟨p, e, m⟩ : NoteVector π α μ)]) =
      some vectors.length ∧
    (vectors ++ [(⟨p, e, m⟩ : NoteVector π α μ)]).getD vectors.length d =
      ⟨p, e, m⟩ := by
  induction vectors with
  | nil => simp [jsFindIndex, List.getD]
  | cons v vs ih =>
      have hv : v.path ≠ p := by
        intro hh
        simp [jsFindIndex, hh] at h
      have hvs : jsFindIndex p vs = none := by
        simp only [jsFindIndex, if_neg hv, Option.map_eq_none'] at h
        exact h
      have := ih hvs
      constructor
      · simp only [List.cons_append, jsFindIndex, if_neg hv, List.append_eq,
          List.length_cons]
        rw [this.1]
        rfl
      · simp only [List.cons_append, List.length_cons, List.getD_cons_succ]
        exact this.2

/-- C7: with the embedding request succeeding, indexing the same unmodified
document twice performs at most one embedding request in total: the first
call performs at most one, and the second call is a cache hit that returns
the store unchanged with zero requests. -/
theorem indexNote_idempotent {π α μ : Type} [DecidableEq π] [DecidableEq μ]
    (embedOf : MFile π μ → Option (List α))
    (vectors : List (NoteVector π α μ)) (f : MFile π μ) (e : List α)
    (hsucc : embedOf f = some e) :
    (indexNote embedOf vectors f).2 ≤ 1 ∧
    indexNote embedOf ((indexNote embedOf vectors f).1.getD []) f =
      ((indexNote embedOf vectors f).1, 0) := by
  cases hfind : jsFindIndex f.path vectors with
  | some i =>
      by_cases hmt : (vectors.getD i ⟨f.path, [], f.mtime⟩).mtime = f.mtime
      · simp only [indexNote, hfind, if_pos hmt]
        simp only [Option.getD_some, indexNote, hfind, if_pos hmt]
        exact ⟨Nat.zero_le 1, trivial⟩
      · have hset := jsFindIndex_set_self f.path e f.mtime
          ⟨f.path, [], f.mtime⟩ vectors i hfind
        simp only [indexNote, hfind, if_neg hmt, hsucc]
        simp only [Option.getD_some, indexNote, hset.1, hset.2]
        exact ⟨Nat.le_refl 1, by simp⟩
  | none =>
      have happ := jsFindIndex_append_self f.path e f.mtime
        ⟨f.path, [], f.mtime⟩ vectors hfind
      simp only [indexNote, hfind, hsucc]
      simp only [Option.getD_some, indexNote, happ.1, happ.2]
      exact ⟨Nat.le_refl 1, by simp⟩

/-- C7 witness: indexing a concrete fresh document twice with a constant
embedding provider requests one embedding on the first call and none on the
second, which leaves the store unchanged. -/
theorem indexNote_idempotent_witness :
    ((fun _ => some [2]) (⟨1, 5⟩ : MFile Nat Nat) = some [2])
    ∧ ((indexNote (fun _ => some [2]) ([] : List (NoteVector Nat Nat Nat)) ⟨1, 5⟩).2 ≤ 1
      ∧ indexNote (fun _ => some [2])
          ((indexNote (fun _ => some [2]) ([] : List (NoteVector Nat Nat Nat)) ⟨1, 5⟩).1.getD []) ⟨1, 5⟩ =
        ((indexNote (fun _ => some [2]) ([] : List (NoteVector Nat Nat Nat)) ⟨1, 5⟩).1, 0)) :=
  ⟨rfl, indexNote_idempotent (fun _ => some [2]) [] ⟨1, 5⟩ [2] rfl⟩

/-! ## The indexAll batch pipeline -/

/-- The distinct ways an indexAll invocation can end.  The cancelled
constructor models the catch branch matching the thrown cancellation
message (which saves partial progress and logs), fatalStoreError the other
catch branch (generic failure log); alreadyInProgress models the reentrancy
guard returning immediately. -/
inductive IndexOutcome
  | completed
  | cancelled
  | alreadyInProgress
  | fatalStoreError
deriving DecidableEq, Repr

/-- State produced by the per-file loop of indexAll: whether the
cancellation error was thrown, the in-memory store, the last persisted
snapshot (none when nothing was written yet), the success and error
counters and the failed paths. -/
structure LoopResult (π α μ : Type) where
  cancelled : Bool
  vectors : List (NoteVector π α μ)
  saved : Option (List (NoteVector π α μ))
  successCount : Nat
  errorCount : Nat
  failedFiles : List π
deriving DecidableEq, Repr

/-- Array.prototype.find over the store, as used by the staleness check of
the indexAll loop. -/
def jsFind {π α μ : Type} [DecidableEq π] (p : π)
    (vectors : List (NoteVector π α μ)) : Option (NoteVector π α μ) :=
  vectors.find? (fun v => decide (v.path = p))

/-- The for-loop of indexAll.  Per file: the processed counter is bumped
and progress reported, control is yielded every five files (both without
effect on the store), then the cooperative cancellation signal is read; if
aborted, the loop throws the cancellation error.  Otherwise a fresh or
stale file is indexed through indexNote, counting successes (persisting a
checkpoint every ten successes) and catching per-document failures so the
batch continues; an up-to-date file is skipped. -/
def indexLoop {π α μ : Type} [DecidableEq π] [DecidableEq μ]
    (embedOf : MFile π μ → Option (List α)) (abortedAt : Nat → Bool) :
    List (MFile π μ) → Nat → List (NoteVector π α μ) →
    Option (List (NoteVector π α μ)) → Nat → Nat → List π → LoopResult π α μ
  | [], _, vectors, saved, success, error, failed =>
      ⟨false, vectors, saved, success, error, failed⟩
  | f :: rest, processed, vectors, saved, success, error, failed =>
      if abortedAt (processed + 1) then
        ⟨true, vectors, saved, success, error, failed⟩
      else
        if (match jsFind f.path vectors with
            | none => true
            | some existing => decide (existing.mtime ≠ f.mtime)) then
          match indexNote embedOf vectors f with
          | (some newVectors, _) =>
              indexLoop embedOf abortedAt rest (processed + 1) newVectors
                (if (success + 1) % 10 = 0 then some newVectors else saved)
                (success + 1) error failed
          | (none, _) =>
              indexLoop embedOf abortedAt rest (processed + 1) vectors saved
                success (error + 1) (failed ++ [f.path])
        else
          indexLoop embedOf abortedAt rest (processed + 1) vectors saved
            success error failed

/-- Result of a whole indexAll invocation. -/
structure IndexAllResult (π α μ : Type) where
  outcome : IndexOutcome
  vectors : List (NoteVector π α μ)
  saved : Option (List (NoteVector π α μ))
  successCount : Nat
  errorCount : Nat
  prunedCount : Nat
  failedFiles : List π
deriving DecidableEq, Repr

/-- indexAll: refuse to start while a session is running; otherwise load
the persisted store (the loaded parameter), run the per-file loop, then
either handle the thrown cancellation (persisting partial progress when
anything succeeded and reporting the distinct cancelled outcome) or finish
normally: persist if anything succeeded, prune records whose paths are not
in the current file set, and persist again when anything was pruned. -/
def indexAll {π α μ : Type} [DecidableEq π] [DecidableEq μ]
    (isIndexing : Bool) (embedOf : MFile π μ → Option (List α))
    (abortedAt : Nat → Bool) (files : List (MFile π μ))
    (loaded : List (NoteVector π α μ)) : IndexAllResult π α μ :=
  if isIndexing then ⟨.alreadyInProgress, loaded, none, 0, 0, 0, []⟩
  else
    let r := indexLoop embedOf abortedAt files 0 loaded none 0 0 []
    if r.cancelled then
      ⟨.cancelled, r.vectors,
        (if r.successCount > 0 then some r.vectors else r.saved),
        r.successCount, r.errorCount, 0, r.failedFiles⟩
    else
      let savedAfter := if r.successCount > 0 then some r.vectors else r.saved
      let pruned := prune r.vectors (files.map (·.path))
      let prunedCount := r.vectors.length - pruned.length
      ⟨.completed, pruned,
        (if prunedCount > 0 then some pruned else savedAfter),
        r.successCount, r.errorCount, prunedCount, r.failedFiles⟩

theorem indexLoop_fresh_cancel {π α μ : Type} [DecidableEq π] [DecidableEq μ]
    (embedF : MFile π μ → List α) (N : Nat) :
    ∀ (fs : List (MFile π μ)) (processed : Nat)
      (vectors : List (NoteVector π α μ))
      (saved : Option (List (NoteVector π α μ)))
      (success error : Nat) (failed : List π),
      (∀ f ∈ fs, f.path ∉ pathsOf vectors) →
      (fs.map (·.path)).Nodup →
      processed ≤ N → N - processed < fs.length →
      ∃ sv, indexLoop (fun f => some (embedF f)) (fun i => decide (N < i)) fs
          processed vectors saved success error failed =
        ⟨true,
          vectors ++ (fs.take (N - processed)).map
            (fun f => ⟨f.path, embedF f, f.mtime⟩),
          sv, success + (N - processed), error, failed⟩ := by
  intro fs
  induction fs with
  | nil =>
      intro processed vectors saved success error failed _ _ _ hlt
      simp at hlt
  | cons f rest ih =>
      intro processed vectors saved success error failed hfresh hnodup hle hlt
      by_cases hstop : N < processed + 1
      · have hNp : N = processed := by omega
        refine ⟨saved, ?_⟩
        simp only [indexLoop]
        rw [if_pos (by simpa using hstop), hNp, Nat.sub_self]
        simp
      · have hplt : processed < N := by omega
        have hfpath : f.path ∉ pathsOf vectors := hfresh f (by simp)
        have hfindnone : jsFindIndex f.path vectors = none :=
          (jsFindIndex_eq_none_iff f.path vectors).mpr hfpath
        have hfind : jsFind f.path vectors = none := by
          apply List.find?_eq_none.mpr
          intro v hv hdec
          exact hfpath (by
            have : v.path = f.path := by simpa using hdec
            rw [pathsOf, List.mem_map]
            exact ⟨v, hv, this⟩)
        have hnote : indexNote (fun g => some (embedF g)) vectors f =
            (some (vectors ++ [⟨f.path, embedF f, f.mtime⟩]), 1) := by
          simp [indexNote, hfindnone]
        have hrest :
            ∀ g ∈ rest, g.path ∉
              pathsOf (vectors ++ [⟨f.path, embedF f, f.mtime⟩]) := by
          intro g hg
          rw [pathsOf_append]
          intro hmem
          rcases List.mem_append.mp hmem with h1 | h1
          · exact hfresh g (by simp [hg]) h1
          · have hgf : g.path = f.path := by simpa [pathsOf] using h1
            have : f.path ∈ rest.map (·.path) :=
              List.mem_map.mpr ⟨g, hg, hgf⟩
            simp only [List.map_cons, List.nodup_cons] at hnodup
            exact hnodup.1 this
        have hnodup2 : (rest.map (·.path)).Nodup := by
          simp only [List.map_cons, List.nodup_cons] at hnodup
          exact hnodup.2
        obtain ⟨sv, hsv⟩ := ih (processed + 1)
          (vectors ++ [⟨f.path, embedF f, f.mtime⟩])
          (if (success + 1) % 10 = 0 then
            some (vectors ++ [⟨f.path, embedF f, f.mtime⟩]) else saved)
          (success + 1) error failed hrest hnodup2 (by omega) (by
            simp only [List.length_cons] at hlt
            omega)
        refine ⟨sv, ?_⟩
        simp only [indexLoop, decide_eq_true_eq, if_neg hstop, hfind, hnote]
        rw [hsv]
        have htake : (N - processed) = (N - (processed + 1)) + 1 := by omega
        rw [htake, List.take_succ_cons, List.map_cons]
        have hsucc : success + 1 + (N - (processed + 1)) =
            success + (N - (processed + 1) + 1) := by omega
        rw [hsucc]
        simp [List.append_assoc]

/-- C3: running indexAll from an empty store over documents with distinct
paths, with every embedding succeeding and the cancellation signal raised
after n documents have been indexed (observed at the per-document check of
iteration n + 1, with n at least 1 and the signal arriving before the batch
ends), stops the loop there, reports the distinct cancelled outcome (not
completed, fatalStoreError or alreadyInProgress), and persists exactly the
records of the n documents indexed so far, with no pruning and no
failures. -/
theorem indexAll_cancelled_persists_partial {π α μ : Type}
    [DecidableEq π] [DecidableEq μ]
    (files : List (MFile π μ)) (embedF : MFile π μ → List α) (n : Nat)
    (hnodup : (files.map (·.path)).Nodup)
    (hn1 : 1 ≤ n) (hnlt : n < files.length) :
    indexAll false (fun f => some (embedF f)) (fun i => decide (n < i)) files [] =
      ⟨.cancelled,
        (files.take n).map (fun f => ⟨f.path, embedF f, f.mtime⟩),
        some ((files.take n).map (fun f => ⟨f.path, embedF f, f.mtime⟩)),
        n, 0, 0, []⟩ := by
  obtain ⟨sv, hsv⟩ := indexLoop_fresh_cancel embedF n files 0 [] none 0 0 []
    (by intro f hf; simp [pathsOf_nil]) hnodup (Nat.zero_le n)
    (by simpa using hnlt)
  simp only [Nat.sub_zero, List.nil_append, Nat.zero_add] at hsv
  simp only [indexAll, Bool.false_eq_true, if_false, hsv]
  simp [show 0 < n from hn1]

/-- C3 witness: the spec scenario with 100 documents and cancellation after
12 succeed: the run reports cancelled and persists exactly the 12 records. -/
theorem indexAll_cancelled_persists_partial_witness :
    ((((List.range 100).map (fun i => (⟨i, 0⟩ : MFile Nat Nat))).map (·.path)).Nodup
      ∧ 1 ≤ 12 ∧ 12 < ((List.range 100).map (fun i => (⟨i, 0⟩ : MFile Nat Nat))).length)
    ∧ indexAll false (fun f => some [f.path]) (fun i => decide (12 < i))
        ((List.range 100).map (fun i => (⟨i, 0⟩ : MFile Nat Nat)))
        ([] : List (NoteVector Nat Nat Nat)) =
      ⟨.cancelled,
        ((((List.range 100).map (fun i => (⟨i, 0⟩ : MFile Nat Nat))).take 12).map
          (fun f => ⟨f.path, [f.path], f.mtime⟩)),
        some ((((List.range 100).map (fun i => (⟨i, 0⟩ : MFile Nat Nat))).take 12).map
          (fun f => ⟨f.path, [f.path], f.mtime⟩)),
        12, 0, 0, []⟩ :=
  ⟨⟨by decide, by decide, by decide⟩,
    indexAll_cancelled_persists_partial
      ((List.range 100).map (fun i => (⟨i, 0⟩ : MFile Nat Nat)))
      (fun f => [f.path]) 12 (by decide) (by decide) (by decide)⟩

/-! ## OllamaClient.generateEmbedding: retry, Safe Mode and Title-Only Mode

The provider is a function from request index to observed reply; the
returned trace lists the requests actually sent, in order.  Replies model
what the code inspects: a thrown transport error (netError), a 200 response
whose parsed body has an embedding field that is an array (success some,
covering the empty array, since the code checks only presence and
Array.isArray) or not (success none), or a non-200 response with its status
and the three substring flags the code tests on the error text (EOF,
connection, context length or context_length). -/

inductive ReqKind
  | fullText
  | safeMode
  | titleOnly
deriving DecidableEq, Repr

inductive ProviderReply
  | netError
  | success (embedding : Option (List Int))
  | failure (status : Nat) (hasEOF hasConnection hasContextLength : Bool)
deriving DecidableEq, Repr

/-- How generateEmbedding ends: an embedding (tagged with the mode that
produced it) or one of the four throw sites: connection failure after
exhausted transport retries, the invalid-embedding-response throw on a
malformed 200, the Ollama-API-error throw carrying the original non-200
status, or the fall-through throw after the loop (unreachable). -/
inductive EmbOutcome
  | ok (origin : ReqKind) (embedding : List Int)
  | connectionFailed
  | invalidResponse
  | apiError (status : Nat)
  | retriesExhausted
deriving DecidableEq, Repr

/-- Title Only Mode: one request with the title prompt; a 200 reply with an
array embedding field returns it, anything else (non-200, malformed 200, or
a caught exception) falls through to the Ollama-API-error throw that uses
the original failing response status. -/
def titleOnlyPhase (provider : Nat → ProviderReply) (idx : Nat)
    (failStatus : Nat) : EmbOutcome × List ReqKind :=
  match provider idx with
  | .success (some e) => (.ok .titleOnly e, [.titleOnly])
  | _ => (.apiError failStatus, [.titleOnly])

/-- Safe Mode: one request with the aggressively cleaned, 2000-character
prompt; a 200 reply with an array embedding field returns it; otherwise,
when a title was supplied, Title Only Mode runs next, else the original
API error is thrown. -/
def safeModePhase (provider : Nat → ProviderReply) (hasTitle : Bool)
    (idx : Nat) (failStatus : Nat) : EmbOutcome × List ReqKind :=
  match provider idx with
  | .success (some e) => (.ok .safeMode e, [.safeMode])
  | _ =>
      if hasTitle then
        let r := titleOnlyPhase provider (idx + 1) failStatus
        (r.1, .safeMode :: r.2)
      else (.apiError failStatus, [.safeMode])

/-- The attempt loop of generateEmbedding.  The first fuel argument is the
number of attempts remaining (retries + 1 - attempt), so the source
condition attempt < retries reads 1 ≤ left here.  A thrown transport error
retries with backoff until attempts run out, then throws connectionFailed.
A non-200 reply whose text matches EOF, connection or a context-length
marker retries likewise, except that a context-length match skips the
remaining retries and a final failure enters Safe Mode; any other non-200
reply throws immediately.  A 200 reply returns its embedding when the field
is an array and throws invalidResponse otherwise. -/
def generateEmbeddingLoop (provider : Nat → ProviderReply) (hasTitle : Bool) :
    Nat → Nat → EmbOutcome × List ReqKind
  | 0, _ => (.retriesExhausted, [])
  | left + 1, idx =>
      match provider idx with
      | .netError =>
          if 1 ≤ left then
            let r := generateEmbeddingLoop provider hasTitle left (idx + 1)
            (r.1, .fullText :: r.2)
          else (.connectionFailed, [.fullText])
      | .success none => (.invalidResponse, [.fullText])
      | .success (some e) => (.ok .fullText e, [.fullText])
      | .failure status hasEOF hasConnection hasContextLength =>
          if hasEOF || hasConnection || hasContextLength then
            if 1 ≤ left && !hasContextLength then
              let r := generateEmbeddingLoop provider hasTitle left (idx + 1)
              (r.1, .fullText :: r.2)
            else
              let r := safeModePhase provider hasTitle (idx + 1) status
              (r.1, .fullText :: r.2)
          else (.apiError status, [.fullText])

/-- generateEmbedding with its default of three retries: up to retries + 1
full-text attempts starting at request index 0. -/
def generateEmbedding (provider : Nat → ProviderReply) (hasTitle : Bool)
    (retries : Nat := 3) : EmbOutcome × List ReqKind :=
  generateEmbeddingLoop provider hasTitle (retries + 1) 0

/-- C4: whenever the first full-text attempt draws a non-200 reply flagged
as a context-length violation and the next request succeeds with an array
embedding, generateEmbedding sends no further full-text retries, sends the
Safe Mode request immediately, and returns the Safe Mode embedding without
ever attempting Title Only Mode, whether or not a title was supplied, for
any retry budget. -/
theorem generateEmbedding_context_length_goes_safe_mode
    (provider : Nat → ProviderReply) (hasTitle : Bool) (retries : Nat)
    (status : Nat) (hasEOF hasConnection : Bool) (e : List Int)
    (h0 : provider 0 = .failure status hasEOF hasConnection true)
    (h1 : provider 1 = .success (some e)) :
    generateEmbedding provider hasTitle retries =
      (.ok .safeMode e, [.fullText, .safeMode]) := by
  simp [generateEmbedding, generateEmbeddingLoop, h0, h1, safeModePhase]

/-- C4 witness: a concrete provider returning a context-length 500 on the
first call and a valid embedding on the reduced-length call yields the Safe
Mode embedding with exactly one full-text and one Safe Mode request. -/
theorem generateEmbedding_context_length_goes_safe_mode_witness :
    ((fun n => if n = 0 then ProviderReply.failure 500 false false true
        else ProviderReply.success (some [1, 2])) 0 =
      ProviderReply.failure 500 false false true)
    ∧ ((fun n => if n = 0 then ProviderReply.failure 500 false false true
        else ProviderReply.success (some [1, 2])) 1 =
      ProviderReply.success (some [1, 2]))
    ∧ generateEmbedding
        (fun n => if n = 0 then ProviderReply.failure 500 false false true
          else ProviderReply.success (some [1, 2])) true =
      (.ok .safeMode [1, 2], [.fullText, .safeMode]) :=
  ⟨rfl, rfl,
    generateEmbedding_context_length_goes_safe_mode _ true 3 500 false false
      [1, 2] rfl rfl⟩

/-- C2 counterexample: a 200 reply on the full-text attempt whose body has
no array embedding field makes generateEmbedding throw the invalid-response
error immediately; no Safe Mode (nor Title Only) request is ever sent even
though a title was supplied, so the fallback chain does not continue. -/
theorem generateEmbedding_malformed200_counterexample :
    generateEmbedding (fun _ => ProviderReply.success none) true =
      (.invalidResponse, [.fullText])
    ∧ ReqKind.safeMode ∉
        (generateEmbedding (fun _ => ProviderReply.success none) true).2
    ∧ ReqKind.titleOnly ∉
        (generateEmbedding (fun _ => ProviderReply.success none) true).2 :=
  ⟨rfl, by decide, by decide⟩

/-- C2 (amended): only the Safe Mode and Title Only success paths treat a
malformed 200 (missing or non-array embedding field; emptiness and element
types are not checked) as a failure that continues the fallback chain: a
malformed 200 on the Safe Mode attempt falls through to Title Only Mode
when a title was supplied.  A malformed 200 on a full-text attempt instead
throws the invalid-response error and aborts the operation. -/
theorem generateEmbedding_malformed200_safe_mode_continues
    (provider : Nat → ProviderReply) (retries : Nat)
    (status : Nat) (hasEOF hasConnection : Bool) (e : List Int)
    (h0 : provider 0 = .failure status hasEOF hasConnection true)
    (h1 : provider 1 = .success none)
    (h2 : provider 2 = .success (some e)) :
    generateEmbedding provider true retries =
      (.ok .titleOnly e, [.fullText, .safeMode, .titleOnly]) := by
  simp [generateEmbedding, generateEmbeddingLoop, safeModePhase,
    titleOnlyPhase, h0, h1, h2]

/-- C2 witness for the amended claim: context-length failure, then a
malformed 200 in Safe Mode, then a valid Title Only reply. -/
theorem generateEmbedding_malformed200_safe_mode_continues_witness :
    ((fun n => match n with
        | 0 => ProviderReply.failure 500 false false true
        | 1 => ProviderReply.success none
        | _ => ProviderReply.success (some [7])) 0 =
      ProviderReply.failure 500 false false true)
    ∧ ((fun n => match n with
        | 0 => ProviderReply.failure 500 false false true
        | 1 => ProviderReply.success none
        | _ => ProviderReply.success (some [7])) 1 = ProviderReply.success none)
    ∧ ((fun n => match n with
        | 0 => ProviderReply.failure 500 false false true
        | 1 => ProviderReply.success none
        | _ => ProviderReply.success (some [7])) 2 =
      ProviderReply.success (some [7]))
    ∧ generateEmbedding
        (fun n => match n with
          | 0 => ProviderReply.failure 500 false false true
          | 1 => ProviderReply.success none
          | _ => ProviderReply.success (some [7])) true =
      (.ok .titleOnly [7], [.fullText, .safeMode, .titleOnly]) :=
  ⟨rfl, rfl, rfl,
    generateEmbedding_malformed200_safe_mode_continues _ 3 500 false false [7]
      rfl rfl rfl⟩

/-! ## Similarity engine: JavaScript number model and cosineSimilarity

JSNum models the binary64 values flowing through cosineSimilarity exactly:
rationals for finite values (idealized without rounding), NaN and the two
infinities with the IEEE-754 special-value rules.  Signed zero is not
distinguished (the zero produced here is +0, matching the accumulators and
literals of the source).  Math.sqrt on a positive non-square rational is
represented by the executable rational stand-in Rat.sqrt; the theorems
below depend on sqrt only at 0 (exact) and through the fact that a finite
nonnegative argument yields a finite nonnegative result. -/

inductive JSNum
  | nan
  | posInf
  | negInf
  | fin (q : ℚ)
deriving DecidableEq, Repr

/-- IEEE addition on the model (exact in the finite case). -/
def JSNum.add : JSNum → JSNum → JSNum
  | nan, _ => nan
  | _, nan => nan
  | posInf, negInf => nan
  | negInf, posInf => nan
  | posInf, _ => posInf
  | _, posInf => posInf
  | negInf, _ => negInf
  | _, negInf => negInf
  | fin a, fin b => fin (a + b)

/-- IEEE negation on the model. -/
def JSNum.neg : JSNum → JSNum
  | nan => nan
  | posInf => negInf
  | negInf => posInf
  | fin a => fin (-a)

/-- IEEE subtraction on the model. -/
def JSNum.sub (x y : JSNum) : JSNum := x.add y.neg

/-- IEEE multiplication on the model (infinity times zero is NaN). -/
def JSNum.mul : JSNum → JSNum → JSNum
  | nan, _ => nan
  | _, nan => nan
  | posInf, posInf => posInf
  | posInf, negInf => negInf
  | negInf, posInf => negInf
  | negInf, negInf => posInf
  | posInf, fin b => if b = 0 then nan else if 0 < b then posInf else negInf
  | fin a, posInf => if a = 0 then nan else if 0 < a then posInf else negInf
  | negInf, fin b => if b = 0 then nan else if 0 < b then negInf else posInf
  | fin a, negInf => if a = 0 then nan else if 0 < a then negInf else posInf
  | fin a, fin b => fin (a * b)

/-- IEEE division on the model: zero over zero is NaN, a nonzero finite
value over (positive) zero is a signed infinity, infinity over infinity is
NaN. -/
def JSNum.div : JSNum → JSNum → JSNum
  | nan, _ => nan
  | _, nan => nan
  | posInf, posInf => nan
  | posInf, negInf => nan
  | negInf, posInf => nan
  | negInf, negInf => nan
  | posInf, fin b => if 0 ≤ b then posInf else negInf
  | negInf, fin b => if 0 ≤ b then negInf else posInf
  | fin _, posInf => fin 0
  | fin _, negInf => fin 0
  | fin a, fin b =>
      if b = 0 then (if a = 0 then nan else if 0 < a then posInf else negInf)
      else fin (a / b)

/-- Math.sqrt on the model: NaN for NaN and negative arguments, infinity
for infinity, and the executable rational stand-in for finite nonnegative
arguments (exact at 0 and at perfect squares). -/
def JSNum.jsqrt : JSNum → JSNum
  | nan => nan
  | posInf => posInf
  | negInf => nan
  | fin q => if q < 0 then nan else fin (Rat.sqrt q)

instance : Add JSNum := ⟨JSNum.add⟩

instance : Neg JSNum := ⟨JSNum.neg⟩

instance : Sub JSNum := ⟨JSNum.sub⟩

instance : Mul JSNum := ⟨JSNum.mul⟩

instance : Div JSNum := ⟨JSNum.div⟩

theorem JSNum.add_def (x y : JSNum) : x + y = JSNum.add x y := rfl

theorem JSNum.sub_def (x y : JSNum) : x - y = JSNum.sub x y := rfl

theorem JSNum.mul_def (x y : JSNum) : x * y = JSNum.mul x y := rfl

theorem JSNum.div_def (x y : JSNum) : x / y = JSNum.div x y := rfl

/-- The accumulator loop of cosineSimilarity: for each index of the first
vector, add a×b to the dot product and the squares to the two norms.  An
index beyond the second vector reads undefined in JavaScript, which behaves
as NaN in arithmetic, hence the NaN default. -/
def cosineLoop : List JSNum → List JSNum → JSNum → JSNum → JSNum →
    JSNum × JSNum × JSNum
  | [], _, dotProduct, normA, normB => (dotProduct, normA, normB)
  | a :: as, bs, dotProduct, normA, normB =>
      cosineLoop as bs.tail (dotProduct + a * bs.headD .nan)
        (normA + a * a) (normB + bs.headD .nan * bs.headD .nan)

/-- cosineSimilarity: the accumulated dot product divided by the product of
the square roots of the two accumulated norms.  The denominator is not
guarded against zero. -/
def cosineSimilarity (a b : List JSNum) : JSNum :=
  let s := cosineLoop a b (.fin 0) (.fin 0) (.fin 0)
  s.1 / (s.2.1.jsqrt * s.2.2.jsqrt)

theorem JSNum.zero_mul_cases (b : JSNum) :
    JSNum.fin 0 * b = JSNum.fin 0 ∨ JSNum.fin 0 * b = JSNum.nan := by
  cases b <;> simp [JSNum.mul_def, JSNum.mul]

theorem JSNum.mul_zero_cases (a : JSNum) :
    a * JSNum.fin 0 = JSNum.fin 0 ∨ a * JSNum.fin 0 = JSNum.nan := by
  cases a <;> simp [JSNum.mul_def, JSNum.mul]

theorem JSNum.zn_add (x v : JSNum)
    (hx : x = JSNum.fin 0 ∨ x = JSNum.nan)
    (hv : v = JSNum.fin 0 ∨ v = JSNum.nan) :
    x + v = JSNum.fin 0 ∨ x + v = JSNum.nan := by
  rcases hx with rfl | rfl <;> rcases hv with rfl | rfl <;>
    simp [JSNum.add_def, JSNum.add]

theorem JSNum.zn_div_zn (x y : JSNum)
    (hx : x = JSNum.fin 0 ∨ x = JSNum.nan)
    (hy : y = JSNum.fin 0 ∨ y = JSNum.nan) : x / y = JSNum.nan := by
  rcases hx with rfl | rfl <;> rcases hy with rfl | rfl <;>
    simp [JSNum.div_def, JSNum.div]

theorem JSNum.jsqrt_zero : (JSNum.fin 0).jsqrt = JSNum.fin 0 := by
  simp [JSNum.jsqrt]

theorem cosineLoop_left_zero :
    ∀ (as bs : List JSNum) (d nA nB : JSNum),
      (∀ x ∈ as, x = JSNum.fin 0) →
      (d = JSNum.fin 0 ∨ d = JSNum.nan) → nA = JSNum.fin 0 →
      ((cosineLoop as bs d nA nB).1 = JSNum.fin 0 ∨
        (cosineLoop as bs d nA nB).1 = JSNum.nan) ∧
      (cosineLoop as bs d nA nB).2.1 = JSNum.fin 0 := by
  intro as
  induction as with
  | nil => intro bs d nA nB _ hd hA; exact ⟨hd, hA⟩
  | cons a as ih =>
      intro bs d nA nB hz hd hA
      have ha : a = JSNum.fin 0 := hz a (by simp)
      subst ha
      rw [cosineLoop]
      apply ih
      · intro x hx; exact hz x (by simp [hx])
      · exact JSNum.zn_add _ _ hd (JSNum.zero_mul_cases _)
      · rw [hA]
        show JSNum.fin 0 + JSNum.fin 0 * JSNum.fin 0 = JSNum.fin 0
        simp [JSNum.add_def, JSNum.add, JSNum.mul_def, JSNum.mul]

theorem cosineLoop_right_zero :
    ∀ (as bs : List JSNum) (d nA nB : JSNum),
      as.length = bs.length →
      (∀ y ∈ bs, y = JSNum.fin 0) →
      (d = JSNum.fin 0 ∨ d = JSNum.nan) → nB = JSNum.fin 0 →
      ((cosineLoop as bs d nA nB).1 = JSNum.fin 0 ∨
        (cosineLoop as bs d nA nB).1 = JSNum.nan) ∧
      (cosineLoop as bs d nA nB).2.2 = JSNum.fin 0 := by
  intro as
  induction as with
  | nil => intro bs d nA nB _ _ hd hB; exact ⟨hd, hB⟩
  | cons a as ih =>
      intro bs d nA nB hlen hz hd hB
      cases bs with
      | nil => simp at hlen
      | cons b bs =>
          have hb : b = JSNum.fin 0 := hz b (by simp)
          subst hb
          rw [cosineLoop]
          simp only [List.headD_cons, List.tail_cons]
          apply ih
          · simpa using hlen
          · intro y hy; exact hz y (by simp [hy])
          · exact JSNum.zn_add _ _ hd (JSNum.mul_zero_cases _)
          · rw [hB]
            show JSNum.fin 0 + JSNum.fin 0 * JSNum.fin 0 = JSNum.fin 0
            simp [JSNum.add_def, JSNum.add, JSNum.mul_def, JSNum.mul]

/-- C10: for vectors of the same length where at least one vector is all
zeros, cosineSimilarity divides a zero (or NaN) dot product by a zero (or
NaN) denominator and returns NaN: the division is not guarded against a
zero denominator, and the implementation's choice for the zero-norm case
left open by the spec is NaN. -/
theorem cosineSimilarity_zero_norm_nan (a b : List JSNum)
    (hlen : a.length = b.length)
    (hzero : (∀ x ∈ a, x = JSNum.fin 0) ∨ (∀ y ∈ b, y = JSNum.fin 0)) :
    cosineSimilarity a b = JSNum.nan := by
  rcases hzero with hA | hB
  · have h := cosineLoop_left_zero a b (.fin 0) (.fin 0) (.fin 0) hA
      (Or.inl rfl) rfl
    show (cosineLoop a b (.fin 0) (.fin 0) (.fin 0)).1 /
        ((cosineLoop a b (.fin 0) (.fin 0) (.fin 0)).2.1.jsqrt *
          (cosineLoop a b (.fin 0) (.fin 0) (.fin 0)).2.2.jsqrt) = JSNum.nan
    rw [h.2, JSNum.jsqrt_zero]
    exact JSNum.zn_div_zn _ _ h.1 (JSNum.zero_mul_cases _)
  · have h := cosineLoop_right_zero a b (.fin 0) (.fin 0) (.fin 0) hlen hB
      (Or.inl rfl) rfl
    show (cosineLoop a b (.fin 0) (.fin 0) (.fin 0)).1 /
        ((cosineLoop a b (.fin 0) (.fin 0) (.fin 0)).2.1.jsqrt *
          (cosineLoop a b (.fin 0) (.fin 0) (.fin 0)).2.2.jsqrt) = JSNum.nan
    rw [h.2, JSNum.jsqrt_zero]
    exact JSNum.zn_div_zn _ _ h.1 (JSNum.mul_zero_cases _)

/-- C10 witness: the zero vector against a unit vector scores NaN. -/
theorem cosineSimilarity_zero_norm_nan_witness :
    ([JSNum.fin 0, JSNum.fin 0].length = [JSNum.fin 1, JSNum.fin 0].length)
    ∧ cosineSimilarity [JSNum.fin 0, JSNum.fin 0] [JSNum.fin 1, JSNum.fin 0] =
      JSNum.nan :=
  ⟨rfl, cosineSimilarity_zero_norm_nan _ _ rfl (Or.inl (by decide))⟩

/-! ## Top-K ranking (searchByText / findRelated)

Both query operations map candidates to (path, score) pairs, sort with the
comparator (a, b) => b.score - a.score and slice the first k entries.
Array.prototype.sort is stable and, for a consistent comparator, produces
the unique order in which u precedes v whenever the comparator is negative
and ties keep input order; the stable insertion sort below realizes exactly
that order.  (A NaN comparator value counts as zero, i.e. a tie, per the
ECMAScript sort specification; for inconsistent comparators, which arise
only when scores are NaN, the engine order is implementation-defined, which
is why the ranking theorem assumes finite scores.) -/

/-- Whether a comparator result is a (strictly) negative number; NaN is
treated as zero by the sort specification. -/
def JSNum.isNegative : JSNum → Bool
  | JSNum.fin q => decide (q < 0)
  | JSNum.negInf => true
  | _ => false

/-- The map step: each candidate becomes its path paired with the cosine
similarity of the query embedding and its embedding. -/
def scoreCandidates {π μ : Type} (queryEmbedding : List JSNum)
    (vectors : List (NoteVector π JSNum μ)) : List (π × JSNum) :=
  vectors.map (fun v => (v.path, cosineSimilarity queryEmbedding v.embedding))

/-- Stable insertion of a scored entry: x goes after exactly those earlier
entries y for which the comparator keeps y first strictly, i.e. for which
comparator (y, x) = x.score - y.score is negative. -/
def jsSortInsert {π : Type} (x : π × JSNum) :
    List (π × JSNum) → List (π × JSNum)
  | [] => [x]
  | y :: ys =>
      if (x.2 - y.2).isNegative then y :: jsSortInsert x ys else x :: y :: ys

/-- The stable descending sort by score. -/
def jsSortByScoreDesc {π : Type} : List (π × JSNum) → List (π × JSNum)
  | [] => []
  | x :: xs => jsSortInsert x (jsSortByScoreDesc xs)

/-- The shared ranking core of searchByText and findRelated: score, sort
descending, slice the first k. -/
def rankTopK {π μ : Type} (queryEmbedding : List JSNum)
    (cands : List (NoteVector π JSNum μ)) (k : Nat) : List (π × JSNum) :=
  (jsSortByScoreDesc (scoreCandidates queryEmbedding cands)).take k

/-- searchByText after the query embedding has been obtained: rank all
stored records, with no self-exclusion. -/
def searchByTextRanked {π μ : Type} (queryEmbedding : List JSNum)
    (vectors : List (NoteVector π JSNum μ)) (topK : Nat) :
    List (π × JSNum) :=
  rankTopK queryEmbedding vectors topK

/-- findRelated: look up the record of the given path (empty result when it
was never indexed) and rank all other records against its embedding. -/
def findRelatedRanked {π μ : Type} [DecidableEq π] (p : π)
    (vectors : List (NoteVector π JSNum μ)) (topK : Nat) :
    List (π × JSNum) :=
  match jsFind p vectors with
  | none => []
  | some target =>
      rankTopK target.embedding
        (vectors.filter (fun v => decide (¬v.path = p))) topK

/-- Finite JavaScript numbers as rationals (0 for the non-finite values,
which the ranking theorem excludes by hypothesis). -/
def toQ : JSNum → ℚ
  | JSNum.fin q => q
  | _ => 0

/-- Modelled from the spec wording, for comparison with the source sort:
insertion ordered descending by score with equal scores ordered by the
candidates' original input order (the index component). -/
def specInsertDesc {π : Type} (x : Nat × π × ℚ) :
    List (Nat × π × ℚ) → List (Nat × π × ℚ)
  | [] => [x]
  | y :: ys =>
      if x.2.2 < y.2.2 ∨ (x.2.2 = y.2.2 ∧ y.1 < x.1) then
        y :: specInsertDesc x ys
      else x :: y :: ys

/-- Modelled from the spec wording: full sort by (score descending, input
index ascending). -/
def specSortDesc {π : Type} : List (Nat × π × ℚ) → List (Nat × π × ℚ)
  | [] => []
  | x :: xs => specInsertDesc x (specSortDesc xs)

theorem specInsertDesc_mem {π : Type} (x z : Nat × π × ℚ) :
    ∀ M : List (Nat × π × ℚ), z ∈ specInsertDesc x M → z = x ∨ z ∈ M := by
  intro M
  induction M with
  | nil => intro h; simpa [specInsertDesc] using h
  | cons y ys ih =>
      intro h
      rw [specInsertDesc] at h
      by_cases hc : x.2.2 < y.2.2 ∨ (x.2.2 = y.2.2 ∧ y.1 < x.1)
      · rw [if_pos hc] at h
        rcases List.mem_cons.mp h with rfl | h
        · exact Or.inr (by simp)
        · rcases ih h with h1 | h1
          · exact Or.inl h1
          · exact Or.inr (by simp [h1])
      · rw [if_neg hc] at h
        rcases List.mem_cons.mp h with rfl | h
        · exact Or.inl rfl
        · exact Or.inr h

theorem specSortDesc_mem {π : Type} (z : Nat × π × ℚ) :
    ∀ L : List (Nat × π × ℚ), z ∈ specSortDesc L → z ∈ L := by
  intro L
  induction L with
  | nil => intro h; simp [specSortDesc] at h
  | cons x xs ih =>
      intro h
      rcases specInsertDesc_mem x z (specSortDesc xs) h with rfl | h1
      · simp
      · simp [ih h1]

/-- Forget the input-order index of an indexed scored entry, recovering the
(path, score) pair with a finite score. -/
def deIdx {π : Type} (t : Nat × π × ℚ) : π × JSNum := (t.2.1, JSNum.fin t.2.2)

theorem jsSortInsert_map_specInsertDesc {π : Type} (x : Nat × π × ℚ) :
    ∀ M : List (Nat × π × ℚ), (∀ y ∈ M, x.1 < y.1) →
      jsSortInsert (deIdx x) (M.map deIdx) = (specInsertDesc x M).map deIdx := by
  intro M
  induction M with
  | nil => intro _; rfl
  | cons y ys ih =>
      intro hidx
      have hxy : x.1 < y.1 := hidx y (by simp)
      have hsub : ((deIdx x).2 - (deIdx y).2).isNegative =
          decide (x.2.2 < y.2.2) := by
        simp only [deIdx, JSNum.sub_def, JSNum.sub, JSNum.neg, JSNum.add,
          JSNum.isNegative]
        refine decide_eq_decide.mpr ?_
        rw [← sub_eq_add_neg, sub_neg]
      simp only [List.map_cons, jsSortInsert, specInsertDesc]
      by_cases hlt : x.2.2 < y.2.2
      · rw [if_pos (by rw [hsub]; exact decide_eq_true hlt),
          if_pos (Or.inl hlt), List.map_cons,
          ih (fun z hz => hidx z (by simp [hz]))]
      · have hjs : ¬(((deIdx x).2 - (deIdx y).2).isNegative = true) := by
          rw [hsub]; simp [hlt]
        have hspec : ¬(x.2.2 < y.2.2 ∨ (x.2.2 = y.2.2 ∧ y.1 < x.1)) := by
          rintro (h1 | h1)
          · exact hlt h1
          · omega
        rw [if_neg hjs, if_neg hspec, List.map_cons, List.map_cons]

theorem jsSort_map_specSortDesc {π : Type} :
    ∀ L : List (Nat × π × ℚ), L.Pairwise (fun s t => s.1 < t.1) →
      jsSortByScoreDesc (L.map deIdx) = (specSortDesc L).map deIdx := by
  intro L
  induction L with
  | nil => intro _; rfl
  | cons x xs ih =>
      intro h
      simp only [List.map_cons, jsSortByScoreDesc, specSortDesc]
      rw [ih (List.Pairwise.of_cons h)]
      exact jsSortInsert_map_specInsertDesc x (specSortDesc xs)
        (fun y hy => List.rel_of_pairwise_cons h (specSortDesc_mem y xs hy))

theorem enumFrom_fst_le {β : Type} :
    ∀ (l : List β) (n : Nat) (y : Nat × β), y ∈ List.enumFrom n l → n ≤ y.1 := by
  intro l
  induction l with
  | nil => intro n y h; simp [List.enumFrom] at h
  | cons b bs ih =>
      intro n y h
      rcases List.mem_cons.mp h with rfl | h1
      · exact Nat.le_refl n
      · exact Nat.le_of_succ_le (ih (n + 1) y h1)

theorem enumFrom_fst_pairwise {β : Type} :
    ∀ (l : List β) (n : Nat),
      (List.enumFrom n l).Pairwise (fun s t => s.1 < t.1) := by
  intro l
  induction l with
  | nil => intro n; simp [List.enumFrom]
  | cons b bs ih =>
      intro n
      refine List.Pairwise.cons ?_ (ih (n + 1))
      intro y hy
      exact Nat.lt_of_lt_of_le (Nat.lt_succ_self n) (enumFrom_fst_le bs (n + 1) y hy)

theorem map_enumFrom_recover {π : Type} :
    ∀ (l : List (π × JSNum)) (n : Nat),
      (∀ p ∈ l, ∃ q, p.2 = JSNum.fin q) →
      (List.enumFrom n l).map (fun p => (p.2.1, JSNum.fin (toQ p.2.2))) = l := by
  intro l
  induction l with
  | nil => intro n _; rfl
  | cons p l ih =>
      intro n hfin
      show ((n, p) :: List.enumFrom (n + 1) l).map _ = p :: l
      rw [List.map_cons]
      obtain ⟨q, hq⟩ := hfin p (by simp)
      congr 1
      · show (p.1, JSNum.fin (toQ p.2)) = p
        rw [hq]
        show (p.1, JSNum.fin q) = p
        rw [← hq]
      · exact ih (n + 1) (fun r hr => hfin r (by simp [hr]))

theorem specInsertDesc_pairwise {π : Type} (x : Nat × π × ℚ) :
    ∀ M : List (Nat × π × ℚ),
      M.Pairwise (fun s t => t.2.2 ≤ s.2.2) →
      (specInsertDesc x M).Pairwise (fun s t => t.2.2 ≤ s.2.2) := by
  intro M
  induction M with
  | nil => intro _; simp [specInsertDesc]
  | cons y ys ih =>
      intro h
      rw [specInsertDesc]
      by_cases hc : x.2.2 < y.2.2 ∨ (x.2.2 = y.2.2 ∧ y.1 < x.1)
      · rw [if_pos hc]
        refine List.Pairwise.cons ?_ (ih (List.Pairwise.of_cons h))
        intro z hz
        rcases specInsertDesc_mem x z ys hz with rfl | hz1
        · rcases hc with h1 | h1
          · exact le_of_lt h1
          · exact le_of_eq h1.1
        · exact List.rel_of_pairwise_cons h hz1
      · rw [if_neg hc]
        push_neg at hc
        refine List.Pairwise.cons ?_ h
        intro z hz
        rcases List.mem_cons.mp hz with rfl | hz1
        · exact hc.1
        · exact le_trans (List.rel_of_pairwise_cons h hz1) hc.1

theorem specSortDesc_pairwise {π : Type} :
    ∀ L : List (Nat × π × ℚ),
      (specSortDesc L).Pairwise (fun s t => t.2.2 ≤ s.2.2) := by
  intro L
  induction L with
  | nil => simp [specSortDesc]
  | cons x xs ih => exact specInsertDesc_pairwise x (specSortDesc xs) ih

/-- C5: when the scores of all candidates against the query embedding are
finite (not NaN: NaN scores arise only from zero-norm or non-finite
vectors, where the ECMAScript sort order becomes implementation-defined),
the top-K ranking equals the first k entries of the specification order
sorted descending by score with equal scores in original candidate order
(the stable-sort specification), is pairwise descending in score, and
yields the empty sequence for k = 0.  The final conjunct records ranking
determinism across repeated calls, which is definitional for this pure
model of the sort. -/
theorem rankTopK_sorted_stable {π μ : Type} (queryEmbedding : List JSNum)
    (cands : List (NoteVector π JSNum μ)) (k : Nat)
    (hfin : ∀ v ∈ cands, ∃ q : ℚ,
      cosineSimilarity queryEmbedding v.embedding = JSNum.fin q) :
    rankTopK queryEmbedding cands k =
      ((specSortDesc ((scoreCandidates queryEmbedding cands).enum.map
        (fun p => (p.1, p.2.1, toQ p.2.2)))).map deIdx).take k
    ∧ (rankTopK queryEmbedding cands k).Pairwise
        (fun u v => toQ v.2 ≤ toQ u.2)
    ∧ (k = 0 → rankTopK queryEmbedding cands k = [])
    ∧ rankTopK queryEmbedding cands k = rankTopK queryEmbedding cands k := by
  have hscored : ∀ p ∈ scoreCandidates queryEmbedding cands,
      ∃ q, p.2 = JSNum.fin q := by
    intro p hp
    rw [scoreCandidates] at hp
    obtain ⟨v, hv, rfl⟩ := List.mem_map.mp hp
    exact hfin v hv
  have hLmap :
      ((scoreCandidates queryEmbedding cands).enum.map
        (fun p => (p.1, p.2.1, toQ p.2.2))).map deIdx =
        scoreCandidates queryEmbedding cands := by
    rw [List.map_map]
    exact map_enumFrom_recover (scoreCandidates queryEmbedding cands) 0 hscored
  have hLpair :
      ((scoreCandidates queryEmbedding cands).enum.map
        (fun p => (p.1, p.2.1, toQ p.2.2))).Pairwise
        (fun s t => s.1 < t.1) := by
    rw [List.pairwise_map]
    exact enumFrom_fst_pairwise (scoreCandidates queryEmbedding cands) 0
  have hsort : jsSortByScoreDesc (scoreCandidates queryEmbedding cands) =
      (specSortDesc ((scoreCandidates queryEmbedding cands).enum.map
        (fun p => (p.1, p.2.1, toQ p.2.2)))).map deIdx := by
    have h := jsSort_map_specSortDesc _ hLpair
    rw [hLmap] at h
    exact h
  refine ⟨?_, ?_, ?_, rfl⟩
  · rw [rankTopK, hsort]
  · rw [rankTopK, hsort]
    refine List.Pairwise.sublist (List.take_sublist k _) ?_
    rw [List.pairwise_map]
    exact specSortDesc_pairwise _
  · intro hk
    rw [hk, rankTopK]
    exact List.take_zero _

/-- C5 witness: three candidates, two of them tied at score one ahead of an
orthogonal candidate; the ranking of the top two is pairwise descending. -/
theorem rankTopK_sorted_stable_witness :
    (∀ v ∈ ([⟨1, [JSNum.fin 1, JSNum.fin 0], 0⟩,
        ⟨2, [JSNum.fin 1, JSNum.fin 0], 0⟩,
        ⟨3, [JSNum.fin 0, JSNum.fin 1], 0⟩] : List (NoteVector Nat JSNum Nat)),
      ∃ q : ℚ, cosineSimilarity [JSNum.fin 1, JSNum.fin 0] v.embedding =
        JSNum.fin q)
    ∧ (rankTopK [JSNum.fin 1, JSNum.fin 0]
        ([⟨1, [JSNum.fin 1, JSNum.fin 0], 0⟩,
          ⟨2, [JSNum.fin 1, JSNum.fin 0], 0⟩,
          ⟨3, [JSNum.fin 0, JSNum.fin 1], 0⟩] :
          List (NoteVector Nat JSNum Nat)) 2).Pairwise
        (fun u v => toQ v.2 ≤ toQ u.2) := by
  have hfin : ∀ v ∈ ([⟨1, [JSNum.fin 1, JSNum.fin 0], 0⟩,
      ⟨2, [JSNum.fin 1, JSNum.fin 0], 0⟩,
      ⟨3, [JSNum.fin 0, JSNum.fin 1], 0⟩] : List (NoteVector Nat JSNum Nat)),
      ∃ q : ℚ, cosineSimilarity [JSNum.fin 1, JSNum.fin 0] v.embedding =
        JSNum.fin q := by
    intro v hv
    rcases List.mem_cons.mp hv with rfl | hv
    · exact ⟨1, by
        simp [cosineSimilarity, cosineLoop, JSNum.add_def, JSNum.add,
          JSNum.mul_def, JSNum.mul, JSNum.div_def, JSNum.div, JSNum.jsqrt]
        norm_num⟩
    rcases List.mem_cons.mp hv with rfl | hv
    · exact ⟨1, by
        simp [cosineSimilarity, cosineLoop, JSNum.add_def, JSNum.add,
          JSNum.mul_def, JSNum.mul, JSNum.div_def, JSNum.div, JSNum.jsqrt]
        norm_num⟩
    rcases List.mem_cons.mp hv with rfl | hv
    · exact ⟨0, by
        simp [cosineSimilarity, cosineLoop, JSNum.add_def, JSNum.add,
          JSNum.mul_def, JSNum.mul, JSNum.div_def, JSNum.div, JSNum.jsqrt]
        norm_num⟩
    · exact absurd hv (List.not_mem_nil v)
  exact ⟨hfin, (rankTopK_sorted_stable _ _ 2 hfin).2.1⟩
